import Mathlib

/-!
# Verification of the PTE Read-Aloud scoring pipeline

Shallow embedding of the scoring code of the PTE repository:

* `src/read_aloud/pte_pronunciation.py` — utterance-level pronunciation
  score and PTE band table;
* `src/read_aloud/alignment/edit_distance.py` — word-level edit-distance
  alignment (the Content Aligner);
* `src/pte_core/mfa/phoneme_alignment.py` — phoneme DP alignment costs,
  intelligibility score and consistency bonus;
* `src/read_aloud/pause/hesitation.py` — hesitation clustering and pause
  penalty aggregation.

Python floats are modelled as rationals (`ℚ`); Python strings as `List Char`;
Python dicts carrying fixed keys as structures.  Fallible accesses that the
code guards with `or`-defaults are modelled with `Option` plus the same
defaults.
-/

namespace PTE

/-! ## Utterance-level pronunciation score (src/read_aloud/pte_pronunciation.py) -/

/-- `_clamp01(x) = max(0.0, min(1.0, x))`. -/
def clamp01 (x : ℚ) : ℚ := max 0 (min 1 x)

/-- Models Python `round(x, 1)` (round to one decimal).  Python uses
round-half-to-even on binary floats; on the rational model we use Mathlib's
`round` (half-up).  The two agree on every input whose double image is not an
exact tie at the second decimal, in particular on all inputs used here. -/
def roundTo1 (x : ℚ) : ℚ := (round (x * 10) : ℚ) / 10

/-- `pronunciation_score_0_100`: clamp the four components to `[0,1]`, take the
weighted sum `0.55*phone + 0.25*stress + 0.10*rhythm + 0.10*consistency_bonus`,
map it via `score * 90 + 10`, cap at `90`, and round to one decimal. -/
def pronunciation_score_0_100 (phone stress rhythm consistency_bonus : ℚ) : ℚ :=
  let phone := clamp01 phone
  let stress := clamp01 stress
  let rhythm := clamp01 rhythm
  let consistency_bonus := clamp01 consistency_bonus
  let score := 0.55 * phone + 0.25 * stress + 0.10 * rhythm + 0.10 * consistency_bonus
  roundTo1 (min (score * 90 + 10) 90)

/-- `pte_pronunciation_band`: the fixed step table from the source, including
its half-open gaps (e.g. scores in `(89.9, 90)` fall through every clause down
to the final `45 if s >= 45 else 30` line). -/
def pte_pronunciation_band (s : ℚ) : ℤ :=
  if 90 ≤ s then 90
  else if 85 ≤ s ∧ s ≤ 899/10 then 85
  else if 80 ≤ s ∧ s ≤ 849/10 then 79
  else if 75 ≤ s ∧ s ≤ 799/10 then 73
  else if 70 ≤ s ∧ s ≤ 749/10 then 65
  else if 60 ≤ s ∧ s ≤ 699/10 then 58
  else if 50 ≤ s ∧ s ≤ 599/10 then 50
  else if 45 ≤ s then 45
  else 30

lemma clamp01_nonneg (x : ℚ) : 0 ≤ clamp01 x := le_max_left _ _

lemma clamp01_le_one (x : ℚ) : clamp01 x ≤ 1 :=
  max_le (by norm_num) (min_le_left _ _)

lemma roundTo1_bounds {x : ℚ} (h1 : 10 ≤ x) (h2 : x ≤ 90) :
    10 ≤ roundTo1 x ∧ roundTo1 x ≤ 90 := by
  have hlo : (100 : ℤ) ≤ round (x * 10) := by
    rw [round_eq, Int.le_floor]
    push_cast
    linarith
  have hhi : round (x * 10) ≤ (900 : ℤ) := by
    have : round (x * 10) < 901 := by
      rw [round_eq, Int.floor_lt]
      push_cast
      linarith
    omega
  have hlo' : (100 : ℚ) ≤ (round (x * 10) : ℚ) := by exact_mod_cast hlo
  have hhi' : ((round (x * 10) : ℚ)) ≤ 900 := by exact_mod_cast hhi
  constructor
  · rw [roundTo1]; linarith
  · rw [roundTo1]; linarith

/-- C1 (amended): the utterance score is the clamped weighted sum mapped by
`score*90 + 10`, capped at 90 and rounded to one decimal, so it always lies in
`[10, 90]`; on `phone=0.9, stress=0.8, rhythm=1.0, consistency_bonus=0.0` the
returned `score_pte` is `81.6` (not `81.55`: the code rounds to one decimal)
and its band is `79`. -/
theorem pronunciation_score_range_and_scenario4 :
    (∀ phone stress rhythm consistency_bonus : ℚ,
        10 ≤ pronunciation_score_0_100 phone stress rhythm consistency_bonus ∧
        pronunciation_score_0_100 phone stress rhythm consistency_bonus ≤ 90) ∧
    pronunciation_score_0_100 0.9 0.8 1 0 = 81.6 ∧
    pte_pronunciation_band 81.6 = 79 := by
  refine ⟨fun phone stress rhythm consistency_bonus => ?_, ?_, ?_⟩
  · have h1 := clamp01_nonneg phone
    have h2 := clamp01_le_one phone
    have h3 := clamp01_nonneg stress
    have h4 := clamp01_le_one stress
    have h5 := clamp01_nonneg rhythm
    have h6 := clamp01_le_one rhythm
    have h7 := clamp01_nonneg consistency_bonus
    have h8 := clamp01_le_one consistency_bonus
    rw [pronunciation_score_0_100]
    apply roundTo1_bounds
    · apply le_min _ (by norm_num)
      nlinarith
    · exact min_le_right _ _
  · norm_num [pronunciation_score_0_100, clamp01, roundTo1, round_eq]
  · norm_num [pte_pronunciation_band]

/-- C1, counterexample to the claim as stated: on scenario 4 the code does not
return `81.55`; it rounds the score to one decimal and returns `81.6`. -/
theorem pronunciation_score_scenario4_not_81_55 :
    pronunciation_score_0_100 0.9 0.8 1 0 ≠ 81.55 ∧
    pronunciation_score_0_100 0.9 0.8 1 0 = 81.6 := by
  constructor <;> norm_num [pronunciation_score_0_100, clamp01, roundTo1, round_eq]

/-- The band table restated over integer tenths-of-a-point. -/
def bandZ (n : ℤ) : ℤ :=
  if 900 ≤ n then 90
  else if 850 ≤ n ∧ n ≤ 899 then 85
  else if 800 ≤ n ∧ n ≤ 849 then 79
  else if 750 ≤ n ∧ n ≤ 799 then 73
  else if 700 ≤ n ∧ n ≤ 749 then 65
  else if 600 ≤ n ∧ n ≤ 699 then 58
  else if 500 ≤ n ∧ n ≤ 599 then 50
  else if 450 ≤ n then 45
  else 30

lemma band_tenths (n : ℤ) : pte_pronunciation_band ((n : ℚ) / 10) = bandZ n := by
  have hten : (0:ℚ) < 10 := by norm_num
  have lo : ∀ c : ℤ, ((c : ℚ) ≤ (n : ℚ) / 10) ↔ c * 10 ≤ n := by
    intro c
    rw [le_div_iff₀ hten]
    constructor
    · intro h; exact_mod_cast h
    · intro h; exact_mod_cast h
  have hi : ∀ c : ℤ, ((n : ℚ) / 10 ≤ (c : ℚ) / 10) ↔ n ≤ c := by
    intro c
    rw [div_le_div_iff_of_pos_right hten]
    constructor
    · intro h; exact_mod_cast h
    · intro h; exact_mod_cast h
  have u90 : ((90:ℚ) ≤ (n : ℚ) / 10) ↔ 900 ≤ n := by
    rw [show ((90:ℚ)) = ((90:ℤ) : ℚ) by norm_num, lo]; omega
  have u85 : ((85:ℚ) ≤ (n : ℚ) / 10) ↔ 850 ≤ n := by
    rw [show ((85:ℚ)) = ((85:ℤ) : ℚ) by norm_num, lo]; omega
  have u80 : ((80:ℚ) ≤ (n : ℚ) / 10) ↔ 800 ≤ n := by
    rw [show ((80:ℚ)) = ((80:ℤ) : ℚ) by norm_num, lo]; omega
  have u75 : ((75:ℚ) ≤ (n : ℚ) / 10) ↔ 750 ≤ n := by
    rw [show ((75:ℚ)) = ((75:ℤ) : ℚ) by norm_num, lo]; omega
  have u70 : ((70:ℚ) ≤ (n : ℚ) / 10) ↔ 700 ≤ n := by
    rw [show ((70:ℚ)) = ((70:ℤ) : ℚ) by norm_num, lo]; omega
  have u60 : ((60:ℚ) ≤ (n : ℚ) / 10) ↔ 600 ≤ n := by
    rw [show ((60:ℚ)) = ((60:ℤ) : ℚ) by norm_num, lo]; omega
  have u50 : ((50:ℚ) ≤ (n : ℚ) / 10) ↔ 500 ≤ n := by
    rw [show ((50:ℚ)) = ((50:ℤ) : ℚ) by norm_num, lo]; omega
  have u45 : ((45:ℚ) ≤ (n : ℚ) / 10) ↔ 450 ≤ n := by
    rw [show ((45:ℚ)) = ((45:ℤ) : ℚ) by norm_num, lo]; omega
  have v899 : ((n : ℚ) / 10 ≤ 899/10) ↔ n ≤ 899 := by
    rw [show ((899:ℚ)) = ((899:ℤ) : ℚ) by norm_num, hi]
  have v849 : ((n : ℚ) / 10 ≤ 849/10) ↔ n ≤ 849 := by
    rw [show ((849:ℚ)) = ((849:ℤ) : ℚ) by norm_num, hi]
  have v799 : ((n : ℚ) / 10 ≤ 799/10) ↔ n ≤ 799 := by
    rw [show ((799:ℚ)) = ((799:ℤ) : ℚ) by norm_num, hi]
  have v749 : ((n : ℚ) / 10 ≤ 749/10) ↔ n ≤ 749 := by
    rw [show ((749:ℚ)) = ((749:ℤ) : ℚ) by norm_num, hi]
  have v699 : ((n : ℚ) / 10 ≤ 699/10) ↔ n ≤ 699 := by
    rw [show ((699:ℚ)) = ((699:ℤ) : ℚ) by norm_num, hi]
  have v599 : ((n : ℚ) / 10 ≤ 599/10) ↔ n ≤ 599 := by
    rw [show ((599:ℚ)) = ((599:ℤ) : ℚ) by norm_num, hi]
  simp only [pte_pronunciation_band, bandZ, u90, u85, u80, u75, u70, u60, u50, u45,
    v899, v849, v799, v749, v699, v599]

set_option maxHeartbeats 1600000 in
/-- C2 (amended): the band table is monotone on scores with at most one decimal
place — exactly the values `pronunciation_score_0_100` produces.  (On arbitrary
real scores monotonicity fails in the gaps of the table, see the
counterexample.) -/
theorem band_monotone_on_tenths (n₁ n₂ : ℤ) (h : n₁ ≤ n₂) :
    pte_pronunciation_band ((n₁ : ℚ) / 10) ≤ pte_pronunciation_band ((n₂ : ℚ) / 10) := by
  rw [band_tenths, band_tenths]
  simp only [bandZ]
  split_ifs <;> omega

theorem band_monotone_on_tenths_witness :
    pte_pronunciation_band (((800 : ℤ) : ℚ) / 10) ≤ pte_pronunciation_band (((900 : ℤ) : ℚ) / 10) :=
  band_monotone_on_tenths 800 900 (by norm_num)

/-- C2, counterexample to the claim as stated: the step table has gaps, e.g.
`band(89.9) = 85` but `band(89.95) = 45`, so `band` is not monotone over all
real scores. -/
theorem band_not_monotone_on_reals :
    (899/10 : ℚ) ≤ 1799/20 ∧
    pte_pronunciation_band (1799/20) < pte_pronunciation_band (899/10) := by
  constructor <;> norm_num [pte_pronunciation_band]

/-! ## Content Aligner (src/read_aloud/alignment/edit_distance.py)

The source fills a `(n+1) × (m+1)` DP table `dp` of costs and a parallel table
`back` of backpointers, then backtracks from `(n, m)`.  Arrays become functions
here: `cell ref hyp i j` is the pair `(dp[i][j], back[i][j])`.  Python's
`min(candidates, key=lambda x: x[0])` returns the first candidate with minimal
cost; `pyMinFold` reproduces that (strict `<` replacement over the list).  The
candidate order in the source is `del`, `ins`, then the diagonal step.  The
Python backtrack `while` loop runs at most `i + j` iterations because every
known op decreases `i + j`; it is given here literally with fuel `n + m`. -/

/-- One alignment operation `(op, ref_index, hyp_index)`; `mtch` is the source's
`"match"` (a Lean keyword). -/
inductive AlignOp where
  | mtch : ℕ → ℕ → AlignOp
  | sub : ℕ → ℕ → AlignOp
  | del : ℕ → AlignOp
  | ins : ℕ → AlignOp
  | start : AlignOp
deriving DecidableEq

/-- Python `min` over a nonempty list with key = first component: fold keeping
the current best, replacing only on strictly smaller key. -/
def pyMinFold : (ℕ × AlignOp) → List (ℕ × AlignOp) → (ℕ × AlignOp)
  | best, [] => best
  | best, x :: xs => pyMinFold (if x.1 < best.1 then x else best) xs

/-- Row `i+1` of the DP/backpointer table, given row `i` as `prev`.
`cost_sub = 0 if ref[i-1] == hyp[j-1] else 1` is inlined as the token equality
(the source's `cost_sub == 0` test is that same equality). -/
def editRow (ref hyp : List (List Char)) (i : ℕ) (prev : ℕ → ℕ × AlignOp) :
    ℕ → ℕ × AlignOp
  | 0 => (i + 1, AlignOp.del i)
  | j + 1 =>
    pyMinFold ((prev (j + 1)).1 + 1, AlignOp.del i)
      [((editRow ref hyp i prev j).1 + 1, AlignOp.ins j),
       ((prev j).1 + (if ref.getD i [] = hyp.getD j [] then 0 else 1),
        if ref.getD i [] = hyp.getD j [] then AlignOp.mtch i j else AlignOp.sub i j)]

/-- `cell ref hyp i j = (dp[i][j], back[i][j])` of `align_sequences`. -/
def cell (ref hyp : List (List Char)) : ℕ → ℕ → ℕ × AlignOp
  | 0 => fun j =>
    match j with
    | 0 => (0, AlignOp.start)
    | j + 1 => (j + 1, AlignOp.ins j)
  | i + 1 => editRow ref hyp i (cell ref hyp i)

/-- The backtracking loop of `align_sequences` (ops collected from `(i, j)` down
to `(0, 0)`, before the final reversal).  The `start` branch is the source's
`else: break`. -/
def backtrackAux (ref hyp : List (List Char)) : ℕ → ℕ → ℕ → List AlignOp
  | 0, _, _ => []
  | fuel + 1, i, j =>
    if i = 0 ∧ j = 0 then []
    else
      match (cell ref hyp i j).2 with
      | AlignOp.mtch ri hj => AlignOp.mtch ri hj :: backtrackAux ref hyp fuel (i - 1) (j - 1)
      | AlignOp.sub ri hj => AlignOp.sub ri hj :: backtrackAux ref hyp fuel (i - 1) (j - 1)
      | AlignOp.del ri => AlignOp.del ri :: backtrackAux ref hyp fuel (i - 1) j
      | AlignOp.ins hj => AlignOp.ins hj :: backtrackAux ref hyp fuel i (j - 1)
      | AlignOp.start => []

/-- `align_sequences(ref, hyp)` of `edit_distance.py` (identical to
`_align_sequences` of `word_level_matcher.py`). -/
def align_sequences (ref hyp : List (List Char)) : List AlignOp :=
  (backtrackAux ref hyp (ref.length + hyp.length) ref.length hyp.length).reverse

/-- Modelled from the spec's words for the tie-break comparison: the same DP,
but with the candidate list ordered diagonal (`Match/Substitute`), then
`Delete`, then `Insert`, as the spec's tie-break prescribes. -/
def editRowSpecTie (ref hyp : List (List Char)) (i : ℕ) (prev : ℕ → ℕ × AlignOp) :
    ℕ → ℕ × AlignOp
  | 0 => (i + 1, AlignOp.del i)
  | j + 1 =>
    pyMinFold ((prev j).1 + (if ref.getD i [] = hyp.getD j [] then 0 else 1),
        if ref.getD i [] = hyp.getD j [] then AlignOp.mtch i j else AlignOp.sub i j)
      [((prev (j + 1)).1 + 1, AlignOp.del i),
       ((editRowSpecTie ref hyp i prev j).1 + 1, AlignOp.ins j)]

/-- `cell` for the spec-ordered tie-break variant. -/
def cellSpecTie (ref hyp : List (List Char)) : ℕ → ℕ → ℕ × AlignOp
  | 0 => fun j =>
    match j with
    | 0 => (0, AlignOp.start)
    | j + 1 => (j + 1, AlignOp.ins j)
  | i + 1 => editRowSpecTie ref hyp i (cellSpecTie ref hyp i)

/-- Backtracking over the spec-ordered tie-break table. -/
def backtrackSpecTieAux (ref hyp : List (List Char)) : ℕ → ℕ → ℕ → List AlignOp
  | 0, _, _ => []
  | fuel + 1, i, j =>
    if i = 0 ∧ j = 0 then []
    else
      match (cellSpecTie ref hyp i j).2 with
      | AlignOp.mtch ri hj => AlignOp.mtch ri hj :: backtrackSpecTieAux ref hyp fuel (i - 1) (j - 1)
      | AlignOp.sub ri hj => AlignOp.sub ri hj :: backtrackSpecTieAux ref hyp fuel (i - 1) (j - 1)
      | AlignOp.del ri => AlignOp.del ri :: backtrackSpecTieAux ref hyp fuel (i - 1) j
      | AlignOp.ins hj => AlignOp.ins hj :: backtrackSpecTieAux ref hyp fuel i (j - 1)
      | AlignOp.start => []

/-- The alignment the spec's tie-break order (diagonal over `del` over `ins`)
would produce. -/
def align_sequences_specTie (ref hyp : List (List Char)) : List AlignOp :=
  (backtrackSpecTieAux ref hyp (ref.length + hyp.length) ref.length hyp.length).reverse

lemma pyMinFold_nil (b : ℕ × AlignOp) : pyMinFold b [] = b := rfl

lemma pyMinFold_cons (b x : ℕ × AlignOp) (xs : List (ℕ × AlignOp)) :
    pyMinFold b (x :: xs) = pyMinFold (if x.1 < b.1 then x else b) xs := rfl

lemma pyMinFold_mem : ∀ (l : List (ℕ × AlignOp)) (b : ℕ × AlignOp),
    pyMinFold b l = b ∨ pyMinFold b l ∈ l := by
  intro l
  induction l with
  | nil => intro b; left; rfl
  | cons x xs ih =>
    intro b
    rw [pyMinFold_cons]
    rcases ih (if x.1 < b.1 then x else b) with h | h
    · by_cases hc : x.1 < b.1
      · right; rw [h, if_pos hc]; exact List.mem_cons_self _ _
      · left; rw [h, if_neg hc]
    · right; exact List.mem_cons_of_mem _ h

lemma cell_succ_succ_shape (ref hyp : List (List Char)) (i j : ℕ) :
    (cell ref hyp (i+1) (j+1)).2 = AlignOp.del i ∨
    (cell ref hyp (i+1) (j+1)).2 = AlignOp.ins j ∨
    (cell ref hyp (i+1) (j+1)).2 = AlignOp.mtch i j ∨
    (cell ref hyp (i+1) (j+1)).2 = AlignOp.sub i j := by
  have hc : cell ref hyp (i+1) (j+1) =
      pyMinFold (((cell ref hyp i) (j + 1)).1 + 1, AlignOp.del i)
        [((editRow ref hyp i (cell ref hyp i) j).1 + 1, AlignOp.ins j),
         (((cell ref hyp i) j).1 + (if ref.getD i [] = hyp.getD j [] then 0 else 1),
          if ref.getD i [] = hyp.getD j [] then AlignOp.mtch i j else AlignOp.sub i j)] := rfl
  rw [hc]
  rcases pyMinFold_mem
      [((editRow ref hyp i (cell ref hyp i) j).1 + 1, AlignOp.ins j),
       (((cell ref hyp i) j).1 + (if ref.getD i [] = hyp.getD j [] then 0 else 1),
        if ref.getD i [] = hyp.getD j [] then AlignOp.mtch i j else AlignOp.sub i j)]
      (((cell ref hyp i) (j + 1)).1 + 1, AlignOp.del i) with h | h
  · left; rw [h]
  · rcases List.mem_cons.mp h with h | h
    · right; left; rw [h]
    · rcases List.mem_cons.mp h with h | h
      · by_cases he : ref.getD i [] = hyp.getD j []
        · right; right; left; rw [h]; exact if_pos he
        · right; right; right; rw [h]; exact if_neg he
      · exact absurd h (List.not_mem_nil _)

/-- The extracted reference index of an op (`match`, `sub` and `del` carry one). -/
def refIdx : AlignOp → Option ℕ
  | AlignOp.mtch ri _ => some ri
  | AlignOp.sub ri _ => some ri
  | AlignOp.del ri => some ri
  | _ => none

/-- The extracted hypothesis index of an op (`match`, `sub` and `ins` carry one). -/
def hypIdx : AlignOp → Option ℕ
  | AlignOp.mtch _ hj => some hj
  | AlignOp.sub _ hj => some hj
  | AlignOp.ins hj => some hj
  | _ => none

lemma range_reverse_succ (n : ℕ) :
    (List.range (n+1)).reverse = n :: (List.range n).reverse := by
  rw [List.range_succ, List.reverse_append]
  rfl

lemma backtrackAux_filterMap (ref hyp : List (List Char)) :
    ∀ (fuel i j : ℕ), i + j ≤ fuel →
      (backtrackAux ref hyp fuel i j).filterMap refIdx = (List.range i).reverse ∧
      (backtrackAux ref hyp fuel i j).filterMap hypIdx = (List.range j).reverse := by
  intro fuel
  induction fuel with
  | zero =>
    intro i j h
    have hi : i = 0 := by omega
    have hj : j = 0 := by omega
    subst hi; subst hj
    simp [backtrackAux]
  | succ fuel ih =>
    intro i j h
    rcases i with _ | i' <;> rcases j with _ | j'
    · simp [backtrackAux]
    · have hcond : ¬ ((0:ℕ) = 0 ∧ j' + 1 = 0) := by omega
      have hcell : (cell ref hyp 0 (j'+1)).2 = AlignOp.ins j' := rfl
      rw [backtrackAux, if_neg hcond, hcell]
      obtain ⟨ih1, ih2⟩ := ih 0 j' (by omega)
      constructor
      · simpa [refIdx] using ih1
      · simp only [List.filterMap_cons, hypIdx]
        rw [range_reverse_succ]
        simpa [hypIdx] using ih2
    · have hcond : ¬ (i' + 1 = 0 ∧ (0:ℕ) = 0) := by omega
      have hcell : (cell ref hyp (i'+1) 0).2 = AlignOp.del i' := rfl
      rw [backtrackAux, if_neg hcond, hcell]
      obtain ⟨ih1, ih2⟩ := ih i' 0 (by omega)
      constructor
      · simp only [List.filterMap_cons, refIdx]
        rw [range_reverse_succ]
        simpa [refIdx] using ih1
      · simpa [hypIdx] using ih2
    · have hcond : ¬ (i' + 1 = 0 ∧ j' + 1 = 0) := by omega
      rcases cell_succ_succ_shape ref hyp i' j' with hcell | hcell | hcell | hcell
      · rw [backtrackAux, if_neg hcond, hcell]
        obtain ⟨ih1, ih2⟩ := ih i' (j'+1) (by omega)
        constructor
        · simp only [List.filterMap_cons, refIdx]
          rw [range_reverse_succ]
          simpa [refIdx] using ih1
        · simpa [hypIdx] using ih2
      · rw [backtrackAux, if_neg hcond, hcell]
        obtain ⟨ih1, ih2⟩ := ih (i'+1) j' (by omega)
        constructor
        · simpa [refIdx] using ih1
        · simp only [List.filterMap_cons, hypIdx]
          rw [range_reverse_succ]
          simpa [hypIdx] using ih2
      · rw [backtrackAux, if_neg hcond, hcell]
        obtain ⟨ih1, ih2⟩ := ih i' j' (by omega)
        constructor
        · simp only [List.filterMap_cons, refIdx]
          rw [range_reverse_succ]
          simpa [refIdx] using ih1
        · simp only [List.filterMap_cons, hypIdx]
          rw [range_reverse_succ]
          simpa [hypIdx] using ih2
      · rw [backtrackAux, if_neg hcond, hcell]
        obtain ⟨ih1, ih2⟩ := ih i' j' (by omega)
        constructor
        · simp only [List.filterMap_cons, refIdx]
          rw [range_reverse_succ]
          simpa [refIdx] using ih1
        · simp only [List.filterMap_cons, hypIdx]
          rw [range_reverse_succ]
          simpa [hypIdx] using ih2

/-- C4: for every pair of token lists the Content Aligner's output lists every
reference index `0..n-1` exactly once (over `match`/`sub`/`del` ops, in order)
and every hypothesis index `0..m-1` exactly once (over `match`/`sub`/`ins`
ops, in order) — a complete alignment with no gaps and no duplicates, also for
empty inputs. -/
theorem align_sequences_total (ref hyp : List (List Char)) :
    (align_sequences ref hyp).filterMap refIdx = List.range ref.length ∧
    (align_sequences ref hyp).filterMap hypIdx = List.range hyp.length := by
  obtain ⟨h1, h2⟩ :=
    backtrackAux_filterMap ref hyp (ref.length + hyp.length) ref.length hyp.length (le_refl _)
  constructor
  · rw [align_sequences, List.filterMap_reverse, h1, List.reverse_reverse]
  · rw [align_sequences, List.filterMap_reverse, h2, List.reverse_reverse]

/-- C3 (amended): at equal cost the chosen backpointer prefers `Delete` over
`Insert` over the diagonal `Match/Substitute` — the order of the source's
candidate list under Python's first-minimum `min` — as the concrete run on
`ref = ["a","b"], hyp = ["c"]` (a `del`/diagonal tie at cell `(2,1)`) shows. -/
theorem tie_break_del_over_ins_over_diag :
    (∀ (cd ci cs : ℕ) (d i s : AlignOp),
      (cd ≤ ci ∧ cd ≤ cs → pyMinFold (cd, d) [(ci, i), (cs, s)] = (cd, d)) ∧
      (ci < cd ∧ ci ≤ cs → pyMinFold (cd, d) [(ci, i), (cs, s)] = (ci, i)) ∧
      (cs < cd ∧ cs < ci → pyMinFold (cd, d) [(ci, i), (cs, s)] = (cs, s))) ∧
    align_sequences [['a'], ['b']] [['c']] = [AlignOp.sub 0 0, AlignOp.del 1] := by
  constructor
  · intro cd ci cs d i s
    refine ⟨fun h => ?_, fun h => ?_, fun h => ?_⟩
    · rw [pyMinFold_cons, if_neg ((show ¬ ci < cd by omega) : ¬ (ci, i).1 < (cd, d).1),
        pyMinFold_cons, if_neg ((show ¬ cs < cd by omega) : ¬ (cs, s).1 < (cd, d).1),
        pyMinFold_nil]
    · rw [pyMinFold_cons, if_pos ((show ci < cd by omega) : (ci, i).1 < (cd, d).1),
        pyMinFold_cons, if_neg ((show ¬ cs < ci by omega) : ¬ (cs, s).1 < (ci, i).1),
        pyMinFold_nil]
    · by_cases hci : ci < cd
      · rw [pyMinFold_cons, if_pos ((show ci < cd from hci) : (ci, i).1 < (cd, d).1),
          pyMinFold_cons, if_pos ((show cs < ci by omega) : (cs, s).1 < (ci, i).1),
          pyMinFold_nil]
      · rw [pyMinFold_cons, if_neg ((show ¬ ci < cd from hci) : ¬ (ci, i).1 < (cd, d).1),
          pyMinFold_cons, if_pos ((show cs < cd by omega) : (cs, s).1 < (cd, d).1),
          pyMinFold_nil]
  · decide

theorem tie_break_del_over_ins_over_diag_witness :
    pyMinFold (5, AlignOp.del 0) [(5, AlignOp.ins 0), (5, AlignOp.mtch 0 0)] =
      (5, AlignOp.del 0) :=
  (tie_break_del_over_ins_over_diag.1 5 5 5 (AlignOp.del 0) (AlignOp.ins 0)
    (AlignOp.mtch 0 0)).1 ⟨le_refl 5, le_refl 5⟩

/-- C3, counterexample to the claim as stated: on `ref = ["a","b"],
hyp = ["c"]` the code resolves the cost tie at cell `(2,1)` with `Delete`
(giving `[sub 0 0, del 1]`), while the spec's diagonal-first tie-break would
give `[del 0, sub 1 0]`. -/
theorem tie_break_not_diagonal_first :
    align_sequences [['a'], ['b']] [['c']] = [AlignOp.sub 0 0, AlignOp.del 1] ∧
    align_sequences_specTie [['a'], ['b']] [['c']] = [AlignOp.del 0, AlignOp.sub 1 0] ∧
    align_sequences [['a'], ['b']] [['c']] ≠ align_sequences_specTie [['a'], ['b']] [['c']] := by
  refine ⟨by decide, by decide, by decide⟩

/-! ## Phoneme Aligner (src/pte_core/mfa/phoneme_alignment.py)

Phones are Python strings, modelled as `List Char`.  The module-local
constants are transcribed verbatim (the `phonetics.accent_tolerance` import in
that module falls back to the identical in-module sets).  The DP of
`align_phonemes_with_dp` is embedded as its cost table `dpPh` (the function
`i j ↦ dp[i][j]`); the backpointer path does not influence `total_cost`,
`max_cost` or the intelligibility score studied here. -/

/-- `PHONEME_SIMILARITY_COST_MULT` of `phoneme_alignment.py` (directional cost
multipliers). -/
def PHONEME_SIMILARITY_COST_MULT : List ((List Char × List Char) × ℚ) :=
  [((['T','H'], ['T']), 0.4),
   ((['T','H'], ['D']), 0.4),
   ((['D','H'], ['D']), 0.4),
   ((['D','H'], ['T']), 0.5),
   ((['V'], ['W']), 0.3),
   ((['W'], ['V']), 0.6),
   ((['Z'], ['S']), 0.4),
   ((['Z','H'], ['S','H']), 0.5)]

/-- `VOWELS` (fallback set of `phoneme_alignment.py`, same as
`phonetics.accent_tolerance.VOWELS`). -/
def VOWELS : List (List Char) :=
  [['A','A'], ['A','E'], ['A','H'], ['A','O'], ['A','W'], ['A','Y'],
   ['E','H'], ['E','R'], ['E','Y'], ['I','H'], ['I','Y'],
   ['O','W'], ['O','Y'], ['U','H'], ['U','W']]

/-- `FINAL_VOICELESS_STOPS = {"T", "K", "P"}`. -/
def FINAL_VOICELESS_STOPS : List (List Char) := [['T'], ['K'], ['P']]

/-- `FINAL_VOICED_STOPS = {"D", "B", "G"}`. -/
def FINAL_VOICED_STOPS : List (List Char) := [['D'], ['B'], ['G']]

/-- Python dict lookup `d.get(k)` over an association list. -/
def lookupPair : List ((List Char × List Char) × ℚ) → (List Char × List Char) → Option ℚ
  | [], _ => none
  | x :: xs, k => if x.1 = k then some x.2 else lookupPair xs k

/-- `PHONEME_SIMILARITY_COST_MULT.get((e, a))`. -/
def costMultLookup (e a : List Char) : Option ℚ :=
  lookupPair PHONEME_SIMILARITY_COST_MULT (e, a)

/-- `base_phone(p) = (p or "").upper().rstrip("012")`: uppercase, then strip
trailing stress digits. -/
def base_phone (p : List Char) : List Char :=
  ((p.map Char.toUpper).reverse.dropWhile (fun c => c == '0' || c == '1' || c == '2')).reverse

/-- `stress(p)`: 1 for primary stress (`...1`), 2 for secondary (`...2`), else 0;
`endswith` on a single digit is the last-character test. -/
def stress (p : List Char) : ℕ :=
  let q := p.map Char.toUpper
  if q.getLast? = some '1' then 1
  else if q.getLast? = some '2' then 2
  else 0

/-- `substitution_cost(exp, act)`: stress-aware, vowel-weighted, directional. -/
def substitution_cost (exp act : List Char) : ℚ :=
  let e := base_phone exp
  let a := base_phone act
  if e = [] ∨ a = [] then 1
  else if e = a then 0
  else
    let base : ℚ :=
      match costMultLookup e a with
      | some mult => 1 * mult
      | none => 1
    if VOWELS.contains e then
      (if stress exp = 1 then base * 1.4 else base * 1.2)
    else base

/-- `deletion_cost(exp, is_word_final)`: word-final stop discounts. -/
def deletion_cost (exp : List Char) (is_word_final : Bool) : ℚ :=
  let e := base_phone exp
  if e = [] then 1
  else if is_word_final then
    (if FINAL_VOICELESS_STOPS.contains e then 1 * 0.3
     else if FINAL_VOICED_STOPS.contains e then 1 * 0.7
     else 1)
  else 1

/-- `insertion_cost() = 1.0`. -/
def insertion_cost : ℚ := 1

/-- Row 0 of the DP of `align_phonemes_with_dp`:
`dp[0][j] = dp[0][j-1] + insertion_cost()`. -/
def phBaseRow : ℕ → ℚ
  | 0 => 0
  | j + 1 => phBaseRow j + insertion_cost

/-- Row `i+1` of the DP given row `i` as `prev`; `is_word_final` is the
source's `i == n` (1-based row = `i+1` here), and at each inner cell the cost
is the minimum of the substitution, deletion and insertion candidates. -/
def phRow (expected observed : List (List Char)) (i : ℕ) (prev : ℕ → ℚ) : ℕ → ℚ
  | 0 => prev 0 + deletion_cost (expected.getD i []) (i + 1 == expected.length)
  | j + 1 =>
    min (prev j + substitution_cost (expected.getD i []) (observed.getD j []))
      (min (prev (j + 1) + deletion_cost (expected.getD i []) (i + 1 == expected.length))
        (phRow expected observed i prev j + insertion_cost))

/-- `dpPh expected observed i j = dp[i][j]` of `align_phonemes_with_dp`
(accent-tolerant path). -/
def dpPh (expected observed : List (List Char)) : ℕ → ℕ → ℚ
  | 0 => phBaseRow
  | i + 1 => phRow expected observed i (dpPh expected observed i)

/-- The metadata dict entries used by `calculate_intelligibility_score`. -/
structure Metadata where
  total_cost : ℚ
  max_cost : ℚ

/-- Metadata produced by `align_phonemes_with_dp`: `total_cost = dp[n][m]` and
`max_cost = float(n + m) if n + m > 0 else 1.0`. -/
def metaOf (expected observed : List (List Char)) : Metadata :=
  { total_cost := dpPh expected observed expected.length observed.length,
    max_cost := if 0 < expected.length + observed.length
                then ((expected.length + observed.length : ℕ) : ℚ) else 1 }

/-- `calculate_intelligibility_score(alignment_path, metadata, expected_len)`.
The `alignment_path` argument is unused in the source body and omitted; the
`or`-defaults on the metadata reads are kept (`max_cost or 1.0` turns a stored
`0` into `1`). -/
def calculate_intelligibility_score (metadata : Metadata) (expected_len : Option ℤ) : ℚ :=
  let total_cost := metadata.total_cost
  let max_cost :=
    match expected_len with
    | some len => if 0 < len then (len : ℚ) * 1.2
                  else (if metadata.max_cost = 0 then 1 else metadata.max_cost)
    | none => if metadata.max_cost = 0 then 1 else metadata.max_cost
  if max_cost ≤ 0 then 1
  else clamp01 (1 - total_cost / max_cost)

/-- The intelligibility of a pair of phone sequences as `scorer.py` computes
it: `calculate_intelligibility_score(alignment_path, metadata)` with no
`expected_len`. -/
def intelOf (expected observed : List (List Char)) : ℚ :=
  calculate_intelligibility_score (metaOf expected observed) none

/-- `consistency_bonus(patterns)`: `0.02 * count` for every pattern with
`count >= 3` that is listed in `PHONEME_SIMILARITY_COST_MULT`, capped at
`0.10`.  The dict is modelled as an association list of
`((expected_base, observed_base), count)` items. -/
def consistency_bonus (patterns : List ((List Char × List Char) × ℕ)) : ℚ :=
  min (patterns.foldl
        (fun bonus e =>
          if 3 ≤ e.2 ∧ (costMultLookup e.1.1 e.1.2).isSome = true
          then bonus + 0.02 * (e.2 : ℚ)
          else bonus) 0)
    0.10

lemma phBaseRow_eq (j : ℕ) : phBaseRow j = (j : ℚ) := by
  induction j with
  | zero => rfl
  | succ j ih => rw [phBaseRow, ih, insertion_cost]; push_cast; ring

lemma clamp01_zero : clamp01 0 = 0 := by norm_num [clamp01]

/-- The fold of `consistency_bonus` as a sum over the qualifying patterns. -/
lemma consistency_bonus_foldl_eq
    (ps : List ((List Char × List Char) × ℕ)) : ∀ b : ℚ,
    ps.foldl
        (fun bonus e =>
          if 3 ≤ e.2 ∧ (costMultLookup e.1.1 e.1.2).isSome = true
          then bonus + 0.02 * (e.2 : ℚ)
          else bonus) b
      = b + ((ps.filter
              (fun e => decide (3 ≤ e.2 ∧ (costMultLookup e.1.1 e.1.2).isSome = true))).map
            (fun e => 0.02 * (e.2 : ℚ))).sum := by
  induction ps with
  | nil => intro b; simp
  | cons e t ih =>
    intro b
    by_cases hc : 3 ≤ e.2 ∧ (costMultLookup e.1.1 e.1.2).isSome = true
    · rw [List.foldl_cons, if_pos hc, ih (b + 0.02 * (e.2 : ℚ)), List.filter_cons,
        if_pos (decide_eq_true hc), List.map_cons, List.sum_cons]
      ring
    · rw [List.foldl_cons, if_neg hc, ih b, List.filter_cons, if_neg (by simp [hc])]

/-- C5 (amended): the consistency bonus rewards only substitution patterns
that both occur at least 3 times and are listed in
`PHONEME_SIMILARITY_COST_MULT`; those contribute `0.02 * count` each, summed
and capped at `0.10`; everything else (including frequent patterns missing
from the table) contributes nothing, and the bonus always lies in
`[0, 0.10]`. -/
theorem consistency_bonus_table_patterns :
    (∀ ps : List ((List Char × List Char) × ℕ),
        consistency_bonus ps =
          min (((ps.filter
                (fun e => decide (3 ≤ e.2 ∧ (costMultLookup e.1.1 e.1.2).isSome = true))).map
              (fun e => 0.02 * (e.2 : ℚ))).sum) 0.10) ∧
    (∀ ps : List ((List Char × List Char) × ℕ),
        0 ≤ consistency_bonus ps ∧ consistency_bonus ps ≤ 0.10) ∧
    (∀ ps : List ((List Char × List Char) × ℕ),
        (∀ e ∈ ps, e.2 < 3 ∨ costMultLookup e.1.1 e.1.2 = none) →
        consistency_bonus ps = 0) ∧
    consistency_bonus [((['T','H'], ['T']), 4), ((['V'], ['W']), 3)] = 0.10 := by
  have hsum : ∀ ps : List ((List Char × List Char) × ℕ),
      consistency_bonus ps =
        min (((ps.filter
              (fun e => decide (3 ≤ e.2 ∧ (costMultLookup e.1.1 e.1.2).isSome = true))).map
            (fun e => 0.02 * (e.2 : ℚ))).sum) 0.10 := by
    intro ps
    rw [consistency_bonus, consistency_bonus_foldl_eq ps 0, zero_add]
  refine ⟨hsum, fun ps => ?_, fun ps h => ?_, ?_⟩
  · constructor
    · rw [hsum]
      apply le_min
      · apply List.sum_nonneg
        intro x hx
        obtain ⟨e, _, rfl⟩ := List.mem_map.mp hx
        positivity
      · norm_num
    · rw [consistency_bonus]; exact min_le_right _ _
  · rw [hsum]
    have hfil : ps.filter
        (fun e => decide (3 ≤ e.2 ∧ (costMultLookup e.1.1 e.1.2).isSome = true)) = [] := by
      rw [List.filter_eq_nil_iff]
      intro e he
      simp only [decide_eq_true_eq]
      rintro ⟨h3, hs⟩
      rcases h e he with hlt | hnone
      · omega
      · rw [hnone] at hs
        simp at hs
    rw [hfil]
    norm_num
  · have hTH : (costMultLookup ['T','H'] ['T']).isSome = true := by decide
    have hVW : (costMultLookup ['V'] ['W']).isSome = true := by decide
    norm_num [consistency_bonus, hTH, hVW]

theorem consistency_bonus_table_patterns_witness :
    consistency_bonus [((['A','A'], ['B']), 1)] = 0 :=
  consistency_bonus_table_patterns.2.2.1 [((['A','A'], ['B']), 1)]
    (by intro e he; rw [List.mem_singleton] at he; subst he; left; norm_num)

/-- C5, counterexample to the claim as stated: the pattern `("AA", "IY")`
occurs 3 times but is not in `PHONEME_SIMILARITY_COST_MULT`, so the code gives
it no bonus, while the claim (`0.02 x count` regardless of which pair it is)
would give `0.06`. -/
theorem consistency_bonus_ignores_untabled_pattern :
    consistency_bonus [((['A','A'], ['I','Y']), 3)] = 0 ∧
    consistency_bonus [((['A','A'], ['I','Y']), 3)] ≠ 0.06 := by
  have hAA : (costMultLookup ['A','A'] ['I','Y']).isSome = false := by decide
  constructor <;> norm_num [consistency_bonus, hAA]

/-- C6 (amended): with the `scorer.py` call (no `expected_len`): if the
expected sequence is empty and the observed one is not, the intelligibility is
`0`; if both are empty it is `1.0`.  (The symmetric direction of the claim
fails: a non-empty expected sequence against an empty observed one can score
above 0 because of word-final stop deletion discounts — see the
counterexample.) -/
theorem intelligibility_empty_cases (expected observed : List (List Char)) :
    (expected = [] → observed ≠ [] → intelOf expected observed = 0) ∧
    (expected = [] → observed = [] → intelOf expected observed = 1) := by
  constructor
  · intro he ho
    subst he
    have hm : 0 < observed.length := List.length_pos.mpr ho
    have hmQ : ((observed.length : ℚ)) ≠ 0 := by
      exact_mod_cast Nat.pos_iff_ne_zero.mp hm
    have hmQ' : ¬ ((observed.length : ℚ) ≤ 0) := by
      push_neg
      exact_mod_cast hm
    rw [intelOf, calculate_intelligibility_score, metaOf]
    simp only [List.length_nil, Nat.zero_add, dpPh, phBaseRow_eq]
    rw [if_pos hm, if_neg hmQ, if_neg hmQ', div_self hmQ]
    norm_num [clamp01]
  · intro he ho
    subst he; subst ho
    rw [intelOf, calculate_intelligibility_score, metaOf]
    norm_num [dpPh, phBaseRow, clamp01]

theorem intelligibility_empty_cases_witness :
    intelOf [] [['K']] = 0 ∧ intelOf [] [] = 1 :=
  ⟨(intelligibility_empty_cases [] [['K']]).1 rfl (by simp),
   (intelligibility_empty_cases [] []).2 rfl rfl⟩

/-- C6, counterexample to the claim as stated: for `expected = ["T"]`,
`observed = []` the only DP step is deleting a word-final voiceless stop at
cost `0.3`, so the intelligibility is `0.7`, not `0`. -/
theorem intelligibility_nonzero_on_empty_observed :
    intelOf [['T']] [] = 7/10 ∧ intelOf [['T']] [] ≠ 0 := by
  have hb : base_phone ['T'] = ['T'] := by decide
  constructor <;>
    norm_num [intelOf, calculate_intelligibility_score, metaOf, dpPh, phRow, phBaseRow,
      deletion_cost, hb, FINAL_VOICELESS_STOPS, insertion_cost, clamp01]

lemma ite_one_clamp01_mem (c : Prop) [Decidable c] (x : ℚ) :
    0 ≤ (if c then (1:ℚ) else clamp01 x) ∧ (if c then (1:ℚ) else clamp01 x) ≤ 1 := by
  by_cases hc : c
  · rw [if_pos hc]; norm_num
  · rw [if_neg hc]; exact ⟨clamp01_nonneg x, clamp01_le_one x⟩

/-- C7: whenever a positive `expected_len` is supplied the intelligibility is
`clamp01(1 - total_cost / (expected_len * 1.2))`, and for every metadata and
`expected_len` the returned value lies in `[0, 1]`. -/
theorem intelligibility_formula_and_bounds :
    (∀ (m : Metadata) (expected_len : Option ℤ),
        0 ≤ calculate_intelligibility_score m expected_len ∧
        calculate_intelligibility_score m expected_len ≤ 1) ∧
    (∀ (m : Metadata) (len : ℤ), 0 < len →
        calculate_intelligibility_score m (some len) =
          clamp01 (1 - m.total_cost / ((len : ℚ) * 1.2))) := by
  constructor
  · intro m el
    rcases el with _ | len
    · simp only [calculate_intelligibility_score]
      exact ite_one_clamp01_mem _ _
    · simp only [calculate_intelligibility_score]
      exact ite_one_clamp01_mem _ _
  · intro m len hlen
    have hpos : (0:ℚ) < (len : ℚ) * 1.2 := by
      apply mul_pos _ (by norm_num)
      exact_mod_cast hlen
    rw [calculate_intelligibility_score]
    simp only [if_pos hlen]
    rw [if_neg (not_le.mpr hpos)]

theorem intelligibility_formula_and_bounds_witness :
    calculate_intelligibility_score ⟨1/2, 1⟩ (some 2) =
      clamp01 (1 - (⟨1/2, 1⟩ : Metadata).total_cost / (((2:ℤ) : ℚ) * 1.2)) :=
  intelligibility_formula_and_bounds.2 ⟨1/2, 1⟩ 2 (by norm_num)

/-! ## Hesitation clustering (src/read_aloud/pause/hesitation.py)

A pause-evaluation dict is modelled as a record: `start`/`end` may be missing
or `None` (collapsed into `Option.none`, since the code coalesces both with
`or`-defaults), `penalty` is present, `cluster_size` is the key the clustering
pass may add, and `rest` stands for all remaining dict entries (untouched by
this module).  `apply_hesitation_clustering` copies the input dicts
(`[r.copy() for r in pause_results]`), sorts the copies by start time (Python's
`sorted` is stable; modelled with the stable `List.insertionSort`), groups
consecutive sorted pauses whose gap lies in `[0, window]`, amplifies every
member of each group of size > 1, and returns the copies in the original
order.  Because the sorted list aliases the returned one, this equals: return
the input list in order, replacing each record whose original index landed in
a cluster of size `k > 1` by its amplified version — which is how it is
written here (`ampAssign` carries `(original index, cluster size)` pairs). -/

structure PauseRec where
  start : Option ℚ
  end_ : Option ℚ
  penalty : ℚ
  cluster_size : Option ℕ
  rest : ℕ

/-- `HESITATION_CLUSTER_WINDOW = 2.0` (src/read_aloud/pause/rules.py). -/
def HESITATION_CLUSTER_WINDOW : ℚ := 2

/-- `MAX_PUNCTUATION_PENALTY = 0.3` (src/read_aloud/pause/rules.py). -/
def MAX_PUNCTUATION_PENALTY : ℚ := 0.3

/-- `x.get("start", 0) or 0`: a missing or `None` or zero start is `0`. -/
def startKey (r : PauseRec) : ℚ := r.start.getD 0

/-- `x.get("end") or x.get("start", 0) or 0`: the pause end, falling back to
the start, then to `0` (Python `or` treats `0.0` as falsy). -/
def prevEndKey (r : PauseRec) : ℚ :=
  match r.end_ with
  | some v => if v = 0 then startKey r else v
  | none => startKey r

/-- Amplify one clustered pause: `penalty := min(penalty * (1 + 0.2*(k-1)), 1.0)`
and record the cluster size. -/
def amplify (r : PauseRec) (k : ℕ) : PauseRec :=
  { r with penalty := min (r.penalty * (1 + 0.2 * ((k - 1 : ℕ) : ℚ))) 1,
           cluster_size := some k }

/-- Emit the accumulated cluster only when it has more than one member
(the source's `if len(current_cluster) > 1: clusters.append(...)`). -/
def flushAcc (acc : List ℕ) : List (List ℕ) :=
  if 1 < acc.length then [acc.reverse] else []

/-- The cluster-building loop over the sorted pauses: extend the current
cluster when `0 <= time_gap <= window`, otherwise flush it and start anew.
`acc` holds the original indices of the current cluster, most recent first. -/
def runsGo (w : ℚ) : PauseRec → List ℕ → List (ℕ × PauseRec) → List (List ℕ)
  | _, acc, [] => flushAcc acc
  | prev, acc, y :: ys =>
    if 0 ≤ startKey y.2 - prevEndKey prev ∧ startKey y.2 - prevEndKey prev ≤ w then
      runsGo w y.2 (y.1 :: acc) ys
    else
      flushAcc acc ++ runsGo w y.2 [y.1] ys

/-- All clusters of size > 1 (lists of original indices) of the sorted pauses. -/
def clustersOf (w : ℚ) : List (ℕ × PauseRec) → List (List ℕ)
  | [] => []
  | x :: xs => runsGo w x.2 [x.1] xs

/-- `(original index, cluster size)` for every pause in a cluster of size > 1. -/
def ampAssign (w : ℚ) (s : List (ℕ × PauseRec)) : List (ℕ × ℕ) :=
  (clustersOf w s).flatMap (fun g => g.map (fun oi => (oi, g.length)))

/-- The per-record update of the amplification pass: amplified when the
record's original index is in a cluster, unchanged otherwise. -/
def applyAmp (amps : List (ℕ × ℕ)) (e : ℕ × PauseRec) : PauseRec :=
  match amps.find? (fun x => x.1 == e.1) with
  | some x => amplify e.2 x.2
  | none => e.2

/-- `apply_hesitation_clustering(pause_results, window)`. -/
def apply_hesitation_clustering (pause_results : List PauseRec) (window : ℚ) :
    List PauseRec :=
  if pause_results.isEmpty then pause_results
  else
    let sorted_results :=
      List.insertionSort (fun a b => startKey a.2 ≤ startKey b.2) pause_results.enum
    let amps := ampAssign window sorted_results
    pause_results.enum.map (applyAmp amps)

/-- `aggregate_pause_penalty(pause_results, max_penalty)`: `0.0` for no pauses,
else the mean penalty capped at `max_penalty`. -/
def aggregate_pause_penalty (pause_results : List PauseRec) (max_penalty : ℚ) : ℚ :=
  if pause_results.isEmpty then 0
  else min ((pause_results.map (fun p => p.penalty)).sum / pause_results.length) max_penalty

lemma mem_runsGo_two_le (w : ℚ) :
    ∀ (ys : List (ℕ × PauseRec)) (prev : PauseRec) (acc g : List ℕ),
      g ∈ runsGo w prev acc ys → 2 ≤ g.length := by
  intro ys
  induction ys with
  | nil =>
    intro prev acc g hg
    rw [runsGo, flushAcc] at hg
    split_ifs at hg with hlen
    · rw [List.mem_singleton] at hg
      subst hg
      simpa using hlen
    · exact absurd hg (List.not_mem_nil _)
  | cons y ys ih =>
    intro prev acc g hg
    rw [runsGo] at hg
    split_ifs at hg with hw
    · exact ih y.2 (y.1 :: acc) g hg
    · rcases List.mem_append.mp hg with hg | hg
      · rw [flushAcc] at hg
        split_ifs at hg with hlen
        · rw [List.mem_singleton] at hg
          subst hg
          simpa using hlen
        · exact absurd hg (List.not_mem_nil _)
      · exact ih y.2 [y.1] g hg

lemma mem_ampAssign_two_le (w : ℚ) (s : List (ℕ × PauseRec)) :
    ∀ x ∈ ampAssign w s, 2 ≤ x.2 := by
  intro x hx
  rw [ampAssign] at hx
  obtain ⟨g, hg, hxg⟩ := List.mem_flatMap.mp hx
  obtain ⟨oi, _, rfl⟩ := List.mem_map.mp hxg
  rcases s with _ | ⟨a, t⟩
  · exact absurd hg (List.not_mem_nil _)
  · exact mem_runsGo_two_le w t a.2 [a.1] g hg

lemma applyAmp_spec (amps : List (ℕ × ℕ)) (h2 : ∀ x ∈ amps, 2 ≤ x.2) (e : ℕ × PauseRec) :
    applyAmp amps e = e.2 ∨ ∃ k : ℕ, 2 ≤ k ∧ applyAmp amps e = amplify e.2 k := by
  rcases hfind : amps.find? (fun x => x.1 == e.1) with _ | x
  · left; rw [applyAmp, hfind]
  · right
    exact ⟨x.2, h2 x (List.mem_of_find?_eq_some hfind), by rw [applyAmp, hfind]⟩

lemma forall2_map_enumFrom (P : PauseRec → Prop) (R : PauseRec → PauseRec → Prop)
    (g : ℕ × PauseRec → PauseRec)
    (hg : ∀ (i : ℕ) (r : PauseRec), P r → R r (g (i, r))) :
    ∀ (l : List PauseRec) (n : ℕ), (∀ r ∈ l, P r) →
      List.Forall₂ R l ((l.enumFrom n).map g) := by
  intro l
  induction l with
  | nil => intro n _; exact List.Forall₂.nil
  | cons a t ih =>
    intro n hl
    rw [List.enumFrom_cons, List.map_cons]
    exact List.Forall₂.cons (hg n a (hl a (List.mem_cons_self a t)))
      (ih (n + 1) (fun r hr => hl r (List.mem_cons_of_mem a hr)))

lemma apply_hesitation_forall2 (P : PauseRec → Prop) (R : PauseRec → PauseRec → Prop)
    (hrefl : ∀ r : PauseRec, P r → R r r)
    (hamp : ∀ (r : PauseRec) (k : ℕ), 2 ≤ k → P r → R r (amplify r k))
    (l : List PauseRec) (w : ℚ) (hl : ∀ r ∈ l, P r) :
    List.Forall₂ R l (apply_hesitation_clustering l w) := by
  rcases l with _ | ⟨a, t⟩
  · exact List.Forall₂.nil
  · rw [apply_hesitation_clustering, if_neg (by simp)]
    refine forall2_map_enumFrom P R _ ?_ (a :: t) 0 hl
    intro i r hp
    rcases applyAmp_spec
        (ampAssign w (List.insertionSort (fun x y => startKey x.2 ≤ startKey y.2) (a :: t).enum))
        (mem_ampAssign_two_le w _) (i, r) with hb | ⟨k, hk, hb⟩
    · rw [hb]; exact hrefl r hp
    · rw [hb]; exact hamp r k hk hp

lemma forall2_mem_right {R : PauseRec → PauseRec → Prop} :
    ∀ {l out : List PauseRec}, List.Forall₂ R l out → ∀ b ∈ out, ∃ a ∈ l, R a b := by
  intro l out h
  induction h with
  | nil => intro b hb; exact absurd hb (List.not_mem_nil _)
  | @cons a b l' out' ha _ ih =>
    intro c hc
    rcases List.mem_cons.mp hc with rfl | hc
    · exact ⟨a, List.mem_cons_self a l', ha⟩
    · obtain ⟨x, hxl, hxr⟩ := ih c hc
      exact ⟨x, List.mem_cons_of_mem a hxl, hxr⟩

lemma amplify_penalty_le (r : PauseRec) (k : ℕ) (h0 : 0 ≤ r.penalty)
    (h1 : r.penalty ≤ 1) : r.penalty ≤ (amplify r k).penalty := by
  rw [amplify]
  apply le_min _ h1
  have hc : (0:ℚ) ≤ ((k - 1 : ℕ) : ℚ) := Nat.cast_nonneg _
  nlinarith

/-- C8: on pause lists whose penalties start in `[0,1]`, every record of the
clustering output is either its input record unchanged or its input record
amplified by `1 + 0.2*(k-1)` for its cluster size `k ≥ 2` capped at `1.0`, so
no output penalty exceeds `1.0`; and three pauses of penalty `0.1` whose gaps
lie within the 2.0 s window come back as one cluster of size 3 with penalty
`0.14` each. -/
theorem hesitation_clustering_amplification :
    (∀ l : List PauseRec, (∀ r ∈ l, 0 ≤ r.penalty ∧ r.penalty ≤ 1) →
      List.Forall₂ (fun r b => b = r ∨ ∃ k : ℕ, 2 ≤ k ∧ b = amplify r k) l
          (apply_hesitation_clustering l HESITATION_CLUSTER_WINDOW) ∧
      ∀ b ∈ apply_hesitation_clustering l HESITATION_CLUSTER_WINDOW, b.penalty ≤ 1) ∧
    apply_hesitation_clustering
        [⟨some 1, some (6/5), 0.1, none, 0⟩,
         ⟨some 2, some (11/5), 0.1, none, 1⟩,
         ⟨some 3, some (16/5), 0.1, none, 2⟩] HESITATION_CLUSTER_WINDOW =
      [⟨some 1, some (6/5), 0.14, some 3, 0⟩,
       ⟨some 2, some (11/5), 0.14, some 3, 1⟩,
       ⟨some 3, some (16/5), 0.14, some 3, 2⟩] := by
  constructor
  · intro l hl
    have hchar := apply_hesitation_forall2 (fun r => 0 ≤ r.penalty ∧ r.penalty ≤ 1)
      (fun r b => b = r ∨ ∃ k : ℕ, 2 ≤ k ∧ b = amplify r k)
      (fun r _ => Or.inl rfl) (fun r k hk _ => Or.inr ⟨k, hk, rfl⟩) l
      HESITATION_CLUSTER_WINDOW hl
    refine ⟨hchar, ?_⟩
    intro b hb
    obtain ⟨a, hal, hR⟩ := forall2_mem_right hchar b hb
    rcases hR with rfl | ⟨k, _, rfl⟩
    · exact (hl b hal).2
    · rw [amplify]
      exact min_le_right _ _
  · have b01 : ((0:ℕ) == (1:ℕ)) = false := rfl
    have b11 : ((1:ℕ) == (1:ℕ)) = true := rfl
    have b02 : ((0:ℕ) == (2:ℕ)) = false := rfl
    have b12 : ((1:ℕ) == (2:ℕ)) = false := rfl
    have b22 : ((2:ℕ) == (2:ℕ)) = true := rfl
    norm_num [apply_hesitation_clustering, List.isEmpty, List.enum, List.enumFrom,
      List.insertionSort, List.orderedInsert, startKey, prevEndKey, ampAssign, clustersOf,
      runsGo, flushAcc, applyAmp, List.find?, amplify, HESITATION_CLUSTER_WINDOW,
      b01, b11, b02, b12, b22]

theorem hesitation_clustering_amplification_witness :
    List.Forall₂ (fun r b => b = r ∨ ∃ k : ℕ, 2 ≤ k ∧ b = amplify r k)
      [(⟨none, none, 1/2, none, 0⟩ : PauseRec)]
      (apply_hesitation_clustering [⟨none, none, 1/2, none, 0⟩] HESITATION_CLUSTER_WINDOW) :=
  (hesitation_clustering_amplification.1 [⟨none, none, 1/2, none, 0⟩]
    (by intro r hr; rw [List.mem_singleton] at hr; subst hr; norm_num)).1

/-- C9: the aggregated pause contribution is `0.0` for an empty pause list,
and for every non-empty list it is exactly the mean of the individual
penalties capped at `0.3`, hence never exceeds `0.3` however many or severe
the pauses are. -/
theorem aggregate_pause_penalty_mean_capped :
    aggregate_pause_penalty [] MAX_PUNCTUATION_PENALTY = 0 ∧
    (∀ l : List PauseRec, l ≠ [] →
      aggregate_pause_penalty l MAX_PUNCTUATION_PENALTY =
        min ((l.map (fun p => p.penalty)).sum / l.length) 0.3 ∧
      aggregate_pause_penalty l MAX_PUNCTUATION_PENALTY ≤ 0.3) := by
  constructor
  · rfl
  · intro l hl
    rcases l with _ | ⟨a, t⟩
    · exact absurd rfl hl
    · rw [aggregate_pause_penalty, if_neg (by simp)]
      exact ⟨rfl, min_le_right _ _⟩

theorem aggregate_pause_penalty_mean_capped_witness :
    aggregate_pause_penalty [⟨none, none, 1/2, none, 0⟩] MAX_PUNCTUATION_PENALTY ≤ 0.3 :=
  (aggregate_pause_penalty_mean_capped.2 [⟨none, none, 1/2, none, 0⟩]
    (List.cons_ne_nil _ _)).2

/-- C10: hesitation clustering is frame-preserving: on penalties in `[0,1]`
the output has the same length and order as the input (the Python code copies
the input dicts, so the originals are untouched — modelled here by purity),
every field other than `penalty` and `cluster_size` is preserved, and each
output penalty is at least its input penalty. -/
theorem hesitation_clustering_frame :
    ∀ l : List PauseRec, (∀ r ∈ l, 0 ≤ r.penalty ∧ r.penalty ≤ 1) →
      (apply_hesitation_clustering l HESITATION_CLUSTER_WINDOW).length = l.length ∧
      List.Forall₂
        (fun r b => (b.start = r.start ∧ b.end_ = r.end_ ∧ b.rest = r.rest) ∧
          r.penalty ≤ b.penalty)
        l (apply_hesitation_clustering l HESITATION_CLUSTER_WINDOW) := by
  intro l hl
  have hchar := apply_hesitation_forall2 (fun r => 0 ≤ r.penalty ∧ r.penalty ≤ 1)
    (fun r b => (b.start = r.start ∧ b.end_ = r.end_ ∧ b.rest = r.rest) ∧
      r.penalty ≤ b.penalty)
    (fun r _ => ⟨⟨rfl, rfl, rfl⟩, le_refl _⟩)
    (fun r k _ hp => ⟨⟨rfl, rfl, rfl⟩, amplify_penalty_le r k hp.1 hp.2⟩) l
    HESITATION_CLUSTER_WINDOW hl
  exact ⟨(List.Forall₂.length_eq hchar).symm, hchar⟩

theorem hesitation_clustering_frame_witness :
    (apply_hesitation_clustering [⟨some 1, none, 1/2, none, 7⟩]
        HESITATION_CLUSTER_WINDOW).length = 1 :=
  (hesitation_clustering_frame [⟨some 1, none, 1/2, none, 7⟩]
    (by intro r hr; rw [List.mem_singleton] at hr; subst hr; norm_num)).1

end PTE
